import Mathlib

/-!
Verification of the background analysis pipeline of the DJ library organizer.

The embedding covers the three core components of the source:
* `ETACalculator` (src/utils/eta_calculator.py) — the pacing estimator,
* the waveform / metadata computations of `AudioProcessor`
  (src/audio/processor.py),
* `WorkerManager` (src/utils/threading_utils.py) — the worker pool, embedded
  as a small-step transition system over an explicit pool state with one
  labelled micro-step per queue / flag operation of the Python code.
-/

namespace DJLib

/-! ### Pacing estimator — `ETACalculator` (src/utils/eta_calculator.py) -/

/-- Python `f"{n:02}"` for a nonnegative integer `n`: pad to two digits. -/
def pad2 (n : ℕ) : String := if n < 10 then "0" ++ toString n else toString n

/-- `collections.deque(maxlen := cap).append`: append on the right, evicting
from the left whenever the length would exceed `cap` (the code constructs the
ring with `deque(maxlen=max_samples)` and `max_samples = 10`). -/
def dequeAppend (cap : ℕ) (q : List ℚ) (x : ℚ) : List ℚ :=
  let q1 := q ++ [x]
  q1.drop (q1.length - cap)

/-- `ETACalculator.get_eta_string(remaining_count)`:

```python
if not self.processing_times or len(self.processing_times) < 3: return ""
if remaining_count == 0: return ""
avg_time = sum(self.processing_times) / len(self.processing_times)
total_seconds = avg_time * remaining_count
if total_seconds < 60: return ""
minutes, _ = divmod(total_seconds, 60)
hours, minutes = divmod(minutes, 60)
return f"ETA: {int(hours):02}:{int(minutes):02}"
```

Python float arithmetic is embedded as exact `ℚ` arithmetic; float `divmod`
is floor division, and `int` on the resulting nonnegative integral floats is
the identity, so `m = ⌊total/60⌋` with `hours = m / 60`, `minutes = m % 60`. -/
def getEtaString (samples : List ℚ) (remaining : ℕ) : String :=
  if samples.length < 3 then ""
  else if remaining = 0 then ""
  else
    let avg : ℚ := samples.sum / (samples.length : ℚ)
    let total : ℚ := avg * (remaining : ℚ)
    if total < 60 then ""
    else
      let m : ℕ := (⌊total / 60⌋).toNat
      "ETA: " ++ pad2 (m / 60) ++ ":" ++ pad2 (m % 60)

/-- State of an `ETACalculator`: the ring of processing times and the
in-flight start timestamp (`None` ↦ `none`). -/
structure EtaState where
  times : List ℚ
  startTime : Option ℚ
deriving DecidableEq

/-- `ETACalculator.__init__` (with the default `max_samples = 10`, which is
how `main_app.py` constructs it: `ETACalculator()`). -/
def etaInit : EtaState := ⟨[], none⟩

/-- The four public operations of `ETACalculator`; clock reads
(`time.time()`) are passed in explicitly. -/
inductive EtaOp where
  | startTracking (now : ℚ)
  | logCompletion (now : ℚ)
  | getEta (remaining : ℕ)
  | reset

/-- One `ETACalculator` method call.  `log_completion` guards on Python
truthiness (`if self.current_track_start_time:`), so a stored timestamp of
exactly `0.0` is treated like `None`; in every branch it then clears the
timestamp.  `get_eta_string` reads but never writes the state. -/
def etaApply (s : EtaState) : EtaOp → EtaState
  | .startTracking now => ⟨s.times, some now⟩
  | .logCompletion now =>
      match s.startTime with
      | some t0 =>
          if t0 ≠ 0 then ⟨dequeAppend 10 s.times (now - t0), none⟩
          else ⟨s.times, none⟩
      | none => ⟨s.times, none⟩
  | .getEta _ => s
  | .reset => ⟨[], none⟩

/-- A sequence of `ETACalculator` method calls starting from a freshly
constructed calculator. -/
def etaRun (ops : List EtaOp) : EtaState := ops.foldl etaApply etaInit

/-! ### Waveform generation — `AudioProcessor._generate_waveform_lines`
(src/audio/processor.py) -/

/-- Default `canvas_width` parameter. -/
def canvasWidth : ℕ := 1160

/-- Default `canvas_height` parameter (as an exact rational). -/
def canvasHeightQ : ℚ := 400

/-- `scale_energy` (src/audio/processor.py, inside
`_generate_waveform_lines`):

```python
def scale_energy(energy):
    return max(0, (energy + 80) / 80) * (canvas_height / 2.2)
```

The float literal `2.2` is embedded as the exact rational `11/5`. -/
def scaleEnergy (energy : ℚ) (canvasHeight : ℚ) : ℚ :=
  max 0 ((energy + 80) / 80) * (canvasHeight / (11 / 5))

/-- `np.linspace(0, frames - 1, num=canvas_width, dtype=int)`: the
`canvasWidth` evenly spaced points of `[0, frames-1]`, truncated to integer
(they are nonnegative, so truncation is floor, i.e. `ℕ` division). -/
def timePoints (frames : ℕ) : List ℕ :=
  (List.range canvasWidth).map fun i => (frames - 1) * i / (canvasWidth - 1)

/-- One emitted drawing primitive: a vertical line segment with a fixed fill
color and width (the dict
`{'coords': (i, cy - h, i, cy + h), 'options': {'fill': c, 'width': 1}}`). -/
structure WaveLine where
  x1 : ℚ
  y1 : ℚ
  x2 : ℚ
  y2 : ℚ
  fill : String
  width : ℕ

/-- The `for i, t in enumerate(time_points):` loop of
`_generate_waveform_lines`.  `meanDb t b` is the mean per-band dB value of
STFT frame `t` for band `b` (0 = bass, 1 = mid, 2 = high), i.e.
`np.mean(frame[mask])` with the `-80.0` sentinel already applied for an empty
band.  A sampled index `t` with `t >= frames` is skipped
(`if t >= stft_db.shape[1]: continue`); otherwise three primitives are
appended. -/
def wfAux (frames : ℕ) (meanDb : ℕ → ℕ → ℚ) : ℕ → List ℕ → List WaveLine
  | _, [] => []
  | i, t :: ts =>
      if frames ≤ t then wfAux frames meanDb (i + 1) ts
      else
        let cy := canvasHeightQ / 2
        let bass := scaleEnergy (meanDb t 0) canvasHeightQ
        let mid := scaleEnergy (meanDb t 1) canvasHeightQ
        let high := scaleEnergy (meanDb t 2) canvasHeightQ
        ⟨i, cy - bass, i, cy + bass, "#0096FF", 1⟩ ::
        ⟨i, cy - mid, i, cy + mid, "#4CBB17", 1⟩ ::
        ⟨i, cy - high, i, cy + high, "white", 1⟩ ::
        wfAux frames meanDb (i + 1) ts

/-- `_generate_waveform_lines` at the default canvas size, for an STFT with
`frames` frames and per-band frame means `meanDb`. -/
def generateWaveformLines (frames : ℕ) (meanDb : ℕ → ℕ → ℚ) : List WaveLine :=
  wfAux frames meanDb 0 (timePoints frames)

/-! ### Rating extraction — `AudioProcessor._extract_metadata`
(src/audio/processor.py) -/

/-- The POPM byte-rating conversion `int(popm.rating * 5 / 255)`: for a byte
rating `r`, `r * 5 / 255` is computed in float and truncated toward zero by
`int`; for `0 ≤ r ≤ 255` the numerator `r * 5 ≤ 1275` is exact in float and
the quotient is never within rounding error of an integer it is not equal to,
so the truncation equals the mathematical floor, i.e. `ℕ` division. -/
def popmToStars (r : ℕ) : ℕ := r * 5 / 255

/-- The rating-selection logic of `_extract_metadata`:

```python
if f'POPM:{popm_email}' in audio_tags:
    rating_val = int(audio_tags[...].rating * 5 / 255)
elif f'TXXX:{RATING_TXXX_DESC}' in audio_tags:
    try: rating_val = int(str(audio_tags[...]))
    except Exception: pass
```

`popm` is the POPM byte rating when that frame is present; `txxx` is the
successfully parsed integer of the TXXX frame when present (parse failures
and absence are both `none`). -/
def extractRating (popm : Option ℕ) (txxx : Option ℤ) : Option ℤ :=
  match popm with
  | some r => some ((popmToStars r : ℕ) : ℤ)
  | none => txxx

/-! ### Worker pool — `WorkerManager` (src/utils/threading_utils.py)

The pool is embedded as a labelled small-step transition system.  The state
carries the two queues, the cancellation flag (`stop_event`), and the status
of every live worker thread — including threads of a previous generation that
`stop_workers` abandoned after its 1-second `join` timeout, since those
continue to run against the *same* queue objects and the *same* (cleared)
stop event.  `start_workers(file_list)` is split into two atomic pieces:

* `Ev.startBegin batch` — the head of `stop_workers`: `stop_event.set()` and
  `_clear_file_queue()`; the `join` window is the interval until the matching
  `Ev.startFinish`, during which worker micro-steps may interleave (a worker
  that takes its head step while the flag is set exits and is joined);
* `Ev.startFinish` — the tail: threads that exited are joined and dropped,
  the rest are abandoned but stay live, `stop_event.clear()`,
  `_clear_queues()` (drain both queues), enqueue the new batch, and spawn
  `num_workers` fresh threads.

Worker micro-steps follow `_worker_wrapper` line by line: `Ev.wHead i` is one
evaluation of `while not self.stop_event.is_set():` plus the
`file_path_queue.get(timeout=0.5)` attempt (exit on a set flag, exit via
`break` on `queue.Empty`, otherwise claim the head path); `Ev.wAnalyze i` is
the return of `worker_function` (the oracle `a` tells whether analysis of a
path succeeds or raises); `Ev.wPush i` is `analysis_queue.put(result)`,
enabled only while the queue is below capacity (a put against a full queue
blocks).  `Ev.deliver p` is a successful `get_result` of the consumer, which
shares the manager thread and hence cannot run mid-restart.  A result is
identified by its source path. -/

/-- File paths. -/
abbrev Path := ℕ

/-- Status of one worker thread inside `_worker_wrapper`. -/
inductive WStatus where
  | atHead
  | analyzing (p : Path)
  | pushing (p : Path)
  | exited
deriving DecidableEq

/-- The shared mutable state of a `WorkerManager` together with its live
worker threads.  `phase = some batch` means the manager thread is inside
`start_workers(batch)`, between `stop_event.set()` and the spawn of the new
generation. -/
structure PoolState where
  phase : Option (List Path)
  stopFlag : Bool
  fileQueue : List Path
  analysisQueue : List Path
  threads : List WStatus
  numWorkers : ℕ
  cap : ℕ
deriving DecidableEq

/-- `WorkerManager.__init__(num_workers, ...)`: empty queues, the analysis
queue built with `queue.Queue(maxsize = num_workers + 1)`, no threads. -/
def initPool (n : ℕ) : PoolState :=
  { phase := none, stopFlag := false, fileQueue := [], analysisQueue := [],
    threads := [], numWorkers := n, cap := n + 1 }

/-- The drain loop `while not q.empty(): q.get_nowait()` of
`_clear_file_queue` / `_clear_queues`, run with no concurrent producer. -/
def drainLoop : List Path → List Path
  | [] => []
  | _ :: xs => drainLoop xs

/-- Transition labels: manager sub-steps, worker micro-steps (by thread
index), and a consumer dequeue. -/
inductive Ev where
  | startBegin (batch : List Path)
  | startFinish
  | wHead (i : ℕ)
  | wAnalyze (i : ℕ)
  | wPush (i : ℕ)
  | deliver (p : Path)
deriving DecidableEq

/-- One transition of the pool.  `a p = true` iff `worker_function p` returns
normally (analysis succeeds); `a p = false` iff it raises.  `none` means the
label is not enabled in this state. -/
def step (a : Path → Bool) (s : PoolState) : Ev → Option PoolState
  | .startBegin batch =>
      match s.phase with
      | none => some { s with phase := some batch, stopFlag := true,
                              fileQueue := drainLoop s.fileQueue }
      | some _ => none
  | .startFinish =>
      match s.phase with
      | some batch =>
          some { s with
            phase := none
            stopFlag := false
            fileQueue := drainLoop s.fileQueue ++ batch
            analysisQueue := drainLoop s.analysisQueue
            threads := s.threads.filter (fun w => w ≠ .exited)
                        ++ List.replicate s.numWorkers .atHead }
      | none => none
  | .wHead i =>
      match s.threads[i]? with
      | some .atHead =>
          if s.stopFlag then some { s with threads := s.threads.set i .exited }
          else
            match s.fileQueue with
            | [] => some { s with threads := s.threads.set i .exited }
            | p :: rest =>
                some { s with threads := s.threads.set i (.analyzing p),
                              fileQueue := rest }
      | _ => none
  | .wAnalyze i =>
      match s.threads[i]? with
      | some (.analyzing p) =>
          if a p then some { s with threads := s.threads.set i (.pushing p) }
          else some { s with threads := s.threads.set i .atHead }
      | _ => none
  | .wPush i =>
      match s.threads[i]? with
      | some (.pushing p) =>
          if s.analysisQueue.length < s.cap then
            some { s with threads := s.threads.set i .atHead,
                          analysisQueue := s.analysisQueue ++ [p] }
          else none
      | _ => none
  | .deliver p =>
      match s.phase with
      | none =>
          match s.analysisQueue with
          | q :: rest =>
              if q = p then some { s with analysisQueue := rest } else none
          | [] => none
      | some _ => none

/-- Run a schedule of labels from a state; `none` if some label is not
enabled where it occurs. -/
def run (a : Path → Bool) : PoolState → List Ev → Option PoolState
  | s, [] => some s
  | s, e :: es =>
      match step a s e with
      | some s1 => run a s1 es
      | none => none

/-- `true` iff the schedule contains no `startBegin`, i.e. the consumer never
initiates another restart. -/
def noStartBegin (evs : List Ev) : Bool :=
  evs.all fun e =>
    match e with
    | .startBegin _ => false
    | _ => true

/-- Generation invariant: the pool is not mid-restart and every path held
anywhere in the pipeline — pending, buffered, or inside a worker — belongs to
the batch `B`. -/
def InGen (B : List Path) (s : PoolState) : Prop :=
  s.phase = none ∧
  (∀ p ∈ s.fileQueue, p ∈ B) ∧
  (∀ p ∈ s.analysisQueue, p ∈ B) ∧
  (∀ q, WStatus.analyzing q ∈ s.threads → q ∈ B) ∧
  (∀ q, WStatus.pushing q ∈ s.threads → q ∈ B)

/-- A sample analysis oracle used in concrete scenarios: analysis succeeds
exactly on even paths. -/
def evenOracle (p : Path) : Bool := p % 2 == 0

/-! ## Theorems -/

/-- The drain loop of `_clear_queues` / `_clear_file_queue` leaves an empty
queue when no producer runs concurrently. -/
theorem drainLoop_nil (q : List Path) : drainLoop q = [] := by
  induction q with
  | nil => rfl
  | cons x xs ih => simpa [drainLoop] using ih

/-- Appending to a `deque(maxlen=cap)` never produces more than `cap`
entries. -/
theorem dequeAppend_length_le (cap : ℕ) (q : List ℚ) (x : ℚ) :
    (dequeAppend cap q x).length ≤ cap := by
  simp only [dequeAppend, List.length_drop, List.length_append,
    List.length_singleton]
  omega

/-- The ring-length bound is preserved by every `ETACalculator` method. -/
theorem etaTimes_le (ops : List EtaOp) :
    ∀ s : EtaState, s.times.length ≤ 10 →
      (ops.foldl etaApply s).times.length ≤ 10 := by
  induction ops with
  | nil => intro s h; exact h
  | cons op ops ih =>
      intro s h
      refine ih _ ?_
      cases op with
      | startTracking now => exact h
      | logCompletion now =>
          cases hs : s.startTime with
          | none => simpa [etaApply, hs] using h
          | some t0 =>
              by_cases ht : t0 ≠ 0
              · simpa [etaApply, hs, ht] using dequeAppend_length_le 10 s.times (now - t0)
              · simpa [etaApply, hs, ht] using h
      | getEta r => exact h
      | reset => simp [etaApply]

/-- Claim C7: the ring of processing-time samples never holds more than 10
entries — this bound is preserved by every sequence of `start_tracking`,
`log_completion`, `get_eta_string` and `reset` calls from a fresh
`ETACalculator` — and appending an 11th sample to a full ring evicts the
oldest sample. -/
theorem eta_ring_capacity :
    (∀ ops : List EtaOp, (etaRun ops).times.length ≤ 10) ∧
    (∀ (q : List ℚ) (x : ℚ), q.length = 10 →
      dequeAppend 10 q x = q.tail ++ [x]) := by
  constructor
  · intro ops
    exact etaTimes_le ops etaInit (by simp [etaInit])
  · intro q x h
    simp only [dequeAppend, List.length_append, List.length_singleton, h]
    rw [show 10 + 1 - 10 = 1 by omega, List.drop_append_eq_append_drop]
    simp [h, List.drop_one]

/-- Witness for C7: a concrete call sequence keeps the ring within 10, and a
full ring `[1..10]` evicts `1` when `11` is appended. -/
theorem eta_ring_capacity_witness :
    (etaRun [EtaOp.startTracking 1, EtaOp.logCompletion 4,
      EtaOp.getEta 3]).times.length ≤ 10 ∧
    dequeAppend 10 [1, 2, 3, 4, 5, 6, 7, 8, 9, 10] 11 =
      [2, 3, 4, 5, 6, 7, 8, 9, 10, 11] := by
  constructor
  · exact eta_ring_capacity.1 _
  · exact (eta_ring_capacity.2 [1, 2, 3, 4, 5, 6, 7, 8, 9, 10] 11
      (by decide)).trans (by decide)

/-- Claim C3 (amended): `get_eta_string` returns the empty string (the
caller then shows nothing) unless at least 3 samples exist, the remaining
count is positive, and `mean(samples) * remaining ≥ 60` seconds; otherwise
it formats `⌊total/60⌋` minutes as `"ETA: HH:MM"`; in particular with
samples `[10,10,10]` and remaining count 10 it returns exactly
`"ETA: 00:01"` (not the bare `"00:01"` of the original claim). -/
theorem eta_estimate_spec :
    (∀ (samples : List ℚ) (r : ℕ),
      ¬(3 ≤ samples.length ∧ 0 < r ∧
          60 ≤ samples.sum / (samples.length : ℚ) * (r : ℚ)) →
      getEtaString samples r = "") ∧
    (∀ (samples : List ℚ) (r : ℕ),
      3 ≤ samples.length → 0 < r →
      60 ≤ samples.sum / (samples.length : ℚ) * (r : ℚ) →
      getEtaString samples r =
        "ETA: " ++
          pad2 ((⌊samples.sum / (samples.length : ℚ) * (r : ℚ) / 60⌋).toNat / 60)
          ++ ":" ++
          pad2 ((⌊samples.sum / (samples.length : ℚ) * (r : ℚ) / 60⌋).toNat % 60)) ∧
    getEtaString [10, 10, 10] 10 = "ETA: 00:01" := by
  refine ⟨?_, ?_, ?_⟩
  · intro samples r h
    simp only [getEtaString]
    split_ifs with h1 h2 h3
    · rfl
    · rfl
    · rfl
    · exact absurd ⟨by omega, by omega, by linarith⟩ h
  · intro samples r h1 h2 h3
    simp only [getEtaString]
    split_ifs with g1 g2 g3
    · exact absurd h1 (by omega)
    · exact absurd h2 (by omega)
    · exact absurd h3 (by linarith)
    · rfl
  · norm_num [getEtaString, pad2]
    rfl

/-- Counterexample to C3 as stated: at samples `[10,10,10]` and remaining
count 10 the code returns `"ETA: 00:01"`, which is not the claimed string
`"00:01"`. -/
theorem eta_estimate_cex :
    getEtaString [10, 10, 10] 10 = "ETA: 00:01" ∧
    getEtaString [10, 10, 10] 10 ≠ "00:01" := by
  constructor
  · norm_num [getEtaString, pad2]
    rfl
  · norm_num [getEtaString, pad2]
    decide

/-- Witness for C3: one sample is too few (empty string), and the concrete
estimate case, both obtained from `eta_estimate_spec`. -/
theorem eta_estimate_spec_witness :
    getEtaString [10] 5 = "" ∧ getEtaString [10, 10, 10] 10 = "ETA: 00:01" := by
  constructor
  · exact eta_estimate_spec.1 [10] 5 (by norm_num)
  · exact (eta_estimate_spec.2.1 [10, 10, 10] 10 (by norm_num) (by norm_num)
      (by norm_num)).trans (by norm_num [pad2]; rfl)

/-- Claim C4: the scaled per-band energy is
`max(0, (meanDb + 80)/80) * (canvasHeight / 2.2)`; a mean of −80 dB or below
maps to 0, and a mean of 0 dB maps to `canvasHeight / 2.2` (at the default
height 400 this is `2000/11 ≈ 181.8`). -/
theorem scale_energy_spec :
    (∀ e h : ℚ, scaleEnergy e h = max 0 ((e + 80) / 80) * (h / (11 / 5))) ∧
    (∀ e h : ℚ, e ≤ -80 → scaleEnergy e h = 0) ∧
    (∀ h : ℚ, scaleEnergy 0 h = h / (11 / 5)) ∧
    scaleEnergy 0 400 = 2000 / 11 := by
  refine ⟨fun e h => rfl, ?_, ?_, ?_⟩
  · intro e h he
    have h1 : (e + 80) / 80 ≤ 0 := by
      rw [div_nonpos_iff]
      right
      constructor <;> linarith
    rw [scaleEnergy, max_eq_left h1, zero_mul]
  · intro h
    rw [scaleEnergy, show ((0 : ℚ) + 80) / 80 = 1 by norm_num,
      max_eq_right (by norm_num : (0 : ℚ) ≤ 1), one_mul]
  · rw [scaleEnergy, show ((0 : ℚ) + 80) / 80 = 1 by norm_num,
      max_eq_right (by norm_num : (0 : ℚ) ≤ 1), one_mul]
    norm_num

/-- Witness for C4: concrete evaluations of `scale_energy` at −100 dB (below
the floor) and at 0 dB with the default canvas height. -/
theorem scale_energy_spec_witness :
    scaleEnergy (-100) 400 = 0 ∧ scaleEnergy 0 400 = 2000 / 11 :=
  ⟨scale_energy_spec.2.1 (-100) 400 (by norm_num), scale_energy_spec.2.2.2⟩

/-- Every sampled time index of the truncated linspace stays strictly below
the frame count (exact-arithmetic model of
`np.linspace(0, frames-1, 1160, dtype=int)`). -/
theorem timePoints_lt (frames : ℕ) (h : 1 ≤ frames) :
    ∀ t ∈ timePoints frames, t < frames := by
  intro t ht
  simp only [timePoints, List.mem_map, List.mem_range] at ht
  obtain ⟨i, hi, rfl⟩ := ht
  have hle : (frames - 1) * i / (canvasWidth - 1) ≤ frames - 1 := by
    calc (frames - 1) * i / (canvasWidth - 1)
        ≤ (frames - 1) * (canvasWidth - 1) / (canvasWidth - 1) :=
          Nat.div_le_div_right (Nat.mul_le_mul_left _ (by omega))
      _ = frames - 1 := Nat.mul_div_cancel _ (by norm_num [canvasWidth])
  omega

/-- The emission loop produces exactly three primitives per retained sampled
index. -/
theorem wfAux_length (frames : ℕ) (meanDb : ℕ → ℕ → ℚ) :
    ∀ (ts : List ℕ) (i : ℕ), (∀ t ∈ ts, t < frames) →
      (wfAux frames meanDb i ts).length = 3 * ts.length := by
  intro ts
  induction ts with
  | nil => intro i _; simp [wfAux]
  | cons t ts ih =>
      intro i h
      have ht : t < frames := h t (by simp)
      rw [wfAux, if_neg (by omega)]
      simp only [List.length_cons, ih (i + 1) (fun u hu => h u (by simp [hu])),
        List.length_cons]
      ring

/-- Claim C9: for an STFT with at least one frame, every integer-truncated
linspace sample index is strictly below the frame count, so the
`if t >= stft_db.shape[1]: continue` branch never fires and the emitted
primitive list has length exactly `3 * canvas_width` (3480 at the default
width 1160). -/
theorem waveform_no_skip_full_length (frames : ℕ) (h : 1 ≤ frames)
    (meanDb : ℕ → ℕ → ℚ) :
    (∀ t ∈ timePoints frames, t < frames) ∧
    (generateWaveformLines frames meanDb).length = 3 * canvasWidth ∧
    3 * canvasWidth = 3480 := by
  refine ⟨timePoints_lt frames h, ?_, by norm_num [canvasWidth]⟩
  rw [generateWaveformLines,
    wfAux_length frames meanDb (timePoints frames) 0 (timePoints_lt frames h)]
  simp [timePoints]

/-- Witness for C9: a two-frame STFT yields the full 3480 primitives. -/
theorem waveform_no_skip_full_length_witness :
    (generateWaveformLines 2 (fun _ _ => 0)).length = 3 * canvasWidth ∧
    3 * canvasWidth = 3480 :=
  ⟨(waveform_no_skip_full_length 2 (by norm_num) (fun _ _ => 0)).2.1,
   (waveform_no_skip_full_length 2 (by norm_num) (fun _ _ => 0)).2.2⟩

/-- Claim C10: when both rating encodings are present the POPM one is used,
and for a POPM byte rating `r ∈ [0, 255]` the derived rating is the integer
truncation of `r * 5 / 255` (equal to the mathematical floor of the exact
quotient), which lies in `[0, 5]`, with `r = 0 ↦ 0` and `r = 255 ↦ 5`. -/
theorem popm_rating_spec (r : ℕ) (t : Option ℤ) (hr : r ≤ 255) :
    extractRating (some r) t = some ((popmToStars r : ℕ) : ℤ) ∧
    popmToStars r ≤ 5 ∧
    popmToStars 0 = 0 ∧
    popmToStars 255 = 5 ∧
    popmToStars r = ⌊((r * 5 : ℕ) : ℚ) / ((255 : ℕ) : ℚ)⌋₊ := by
  refine ⟨rfl, ?_, by decide, by decide, ?_⟩
  · calc r * 5 / 255 ≤ 255 * 5 / 255 :=
        Nat.div_le_div_right (by omega)
      _ = 5 := by norm_num
  · rw [popmToStars, Nat.floor_div_nat, Nat.floor_natCast]

/-- Witness for C10: a POPM rating of 200 beats a present TXXX value and
yields 3 stars. -/
theorem popm_rating_spec_witness :
    extractRating (some 200) (some 7) = some 3 ∧ popmToStars 200 ≤ 5 := by
  have h := popm_rating_spec 200 (some 7) (by decide)
  exact ⟨h.1.trans (by decide), h.2.1⟩

/-- One pool transition preserves the analysis-queue capacity bound. -/
theorem step_cap {a : Path → Bool} {n : ℕ} {s s1 : PoolState} {e : Ev}
    (hc : s.cap = n + 1) (hl : s.analysisQueue.length ≤ n + 1)
    (h : step a s e = some s1) :
    s1.cap = n + 1 ∧ s1.analysisQueue.length ≤ n + 1 := by
  cases e with
  | startBegin batch =>
      cases hp : s.phase with
      | none =>
          simp only [step, hp] at h
          injection h with h
          subst h
          exact ⟨hc, hl⟩
      | some b => simp [step, hp] at h
  | startFinish =>
      cases hp : s.phase with
      | none => simp [step, hp] at h
      | some b =>
          simp only [step, hp] at h
          injection h with h
          subst h
          exact ⟨hc, by simp [drainLoop_nil]⟩
  | wHead i =>
      cases hti : s.threads[i]? with
      | none => simp [step, hti] at h
      | some w =>
          cases w with
          | atHead =>
              simp only [step, hti] at h
              by_cases hfl : s.stopFlag = true
              · rw [if_pos hfl] at h
                injection h with h
                subst h
                exact ⟨hc, hl⟩
              · rw [if_neg hfl] at h
                cases hq : s.fileQueue with
                | nil =>
                    rw [hq] at h
                    injection h with h
                    subst h
                    exact ⟨hc, hl⟩
                | cons p rest =>
                    rw [hq] at h
                    injection h with h
                    subst h
                    exact ⟨hc, hl⟩
          | analyzing p => simp [step, hti] at h
          | pushing p => simp [step, hti] at h
          | exited => simp [step, hti] at h
  | wAnalyze i =>
      cases hti : s.threads[i]? with
      | none => simp [step, hti] at h
      | some w =>
          cases w with
          | atHead => simp [step, hti] at h
          | analyzing p =>
              simp only [step, hti] at h
              by_cases ha : a p = true
              · rw [if_pos ha] at h
                injection h with h
                subst h
                exact ⟨hc, hl⟩
              · rw [if_neg ha] at h
                injection h with h
                subst h
                exact ⟨hc, hl⟩
          | pushing p => simp [step, hti] at h
          | exited => simp [step, hti] at h
  | wPush i =>
      cases hti : s.threads[i]? with
      | none => simp [step, hti] at h
      | some w =>
          cases w with
          | atHead => simp [step, hti] at h
          | analyzing p => simp [step, hti] at h
          | pushing p =>
              simp only [step, hti] at h
              by_cases hlt : s.analysisQueue.length < s.cap
              · rw [if_pos hlt] at h
                injection h with h
                subst h
                refine ⟨hc, ?_⟩
                simp only [List.length_append, List.length_singleton]
                omega
              · rw [if_neg hlt] at h
                exact Option.noConfusion h
          | exited => simp [step, hti] at h
  | deliver p =>
      cases hp : s.phase with
      | some b => simp [step, hp] at h
      | none =>
          cases hq : s.analysisQueue with
          | nil => simp [step, hp, hq] at h
          | cons q rest =>
              simp only [step, hp, hq] at h
              by_cases hqp : q = p
              · rw [if_pos hqp] at h
                injection h with h
                subst h
                rw [hq] at hl
                refine ⟨hc, ?_⟩
                simp only [List.length_cons] at hl
                show rest.length ≤ n + 1
                omega
              · rw [if_neg hqp] at h
                exact Option.noConfusion h

/-- The capacity bound holds along every schedule. -/
theorem run_cap {a : Path → Bool} {n : ℕ} :
    ∀ (evs : List Ev) (s t : PoolState), s.cap = n + 1 →
      s.analysisQueue.length ≤ n + 1 → run a s evs = some t →
      t.cap = n + 1 ∧ t.analysisQueue.length ≤ n + 1 := by
  intro evs
  induction evs with
  | nil =>
      intro s t h1 h2 h
      simp only [run] at h
      injection h with h
      subst h
      exact ⟨h1, h2⟩
  | cons e es ih =>
      intro s t h1 h2 h
      simp only [run] at h
      cases hst : step a s e with
      | none => rw [hst] at h; exact Option.noConfusion h
      | some s1 =>
          rw [hst] at h
          obtain ⟨g1, g2⟩ := step_cap h1 h2 hst
          exact ih s1 t g1 g2 h

/-- Claim C5: the analysis (output) queue is constructed with capacity
`num_workers + 1`; along every schedule of the pool its size never exceeds
`num_workers + 1`; and a worker's `put` is not enabled (it blocks) when the
queue is at capacity. -/
theorem output_queue_bound (a : Path → Bool) (n : ℕ) :
    (initPool n).cap = n + 1 ∧
    (∀ (evs : List Ev) (s : PoolState),
      run a (initPool n) evs = some s → s.analysisQueue.length ≤ n + 1) ∧
    (∀ (s : PoolState) (i : ℕ) (p : Path),
      s.threads[i]? = some (.pushing p) →
      s.cap ≤ s.analysisQueue.length →
      step a s (.wPush i) = none) := by
  refine ⟨rfl, ?_, ?_⟩
  · intro evs s h
    exact (run_cap evs (initPool n) s rfl (by simp [initPool]) h).2
  · intro s i p hi hfull
    simp only [step, hi]
    rw [if_neg (by omega)]

/-- Witness for C5: a concrete one-worker schedule keeps the queue within
capacity 2, and a push against a full queue is disabled. -/
theorem output_queue_bound_witness :
    (initPool 1).cap = 1 + 1 ∧
    ({ phase := none, stopFlag := false, fileQueue := [], analysisQueue := [0],
       threads := [WStatus.atHead], numWorkers := 1,
       cap := 2 } : PoolState).analysisQueue.length ≤ 1 + 1 ∧
    step (fun _ => true)
      { phase := none, stopFlag := false, fileQueue := [], analysisQueue := [5, 6],
        threads := [WStatus.pushing 7], numWorkers := 1, cap := 2 }
      (.wPush 0) = none := by
  refine ⟨(output_queue_bound (fun _ => true) 1).1, ?_, ?_⟩
  · exact (output_queue_bound (fun _ => true) 1).2.1
      [.startBegin [0], .startFinish, .wHead 0, .wAnalyze 0, .wPush 0] _ (by decide)
  · exact (output_queue_bound (fun _ => true) 1).2.2 _ 0 7 (by decide) (by decide)

/-- One pool transition preserves the invariant that every buffered result,
and every result a worker is about to push, comes from a successful
analysis. -/
theorem step_good {a : Path → Bool} {s s1 : PoolState} {e : Ev}
    (h1 : ∀ p ∈ s.analysisQueue, a p = true)
    (h2 : ∀ p, WStatus.pushing p ∈ s.threads → a p = true)
    (h : step a s e = some s1) :
    (∀ p ∈ s1.analysisQueue, a p = true) ∧
    (∀ p, WStatus.pushing p ∈ s1.threads → a p = true) := by
  cases e with
  | startBegin batch =>
      cases hp : s.phase with
      | none =>
          simp only [step, hp] at h
          injection h with h
          subst h
          exact ⟨h1, h2⟩
      | some b => simp [step, hp] at h
  | startFinish =>
      cases hp : s.phase with
      | none => simp [step, hp] at h
      | some b =>
          simp only [step, hp] at h
          injection h with h
          subst h
          constructor
          · intro p hp1
            simp [drainLoop_nil] at hp1
          · intro p hp1
            rcases List.mem_append.mp hp1 with hm | hm
            · exact h2 p (List.mem_filter.mp hm).1
            · exact absurd (List.eq_of_mem_replicate hm) (by simp)
  | wHead i =>
      cases hti : s.threads[i]? with
      | none => simp [step, hti] at h
      | some w =>
          cases w with
          | atHead =>
              simp only [step, hti] at h
              by_cases hfl : s.stopFlag = true
              · rw [if_pos hfl] at h
                injection h with h
                subst h
                refine ⟨h1, fun p hp1 => ?_⟩
                rcases List.mem_or_eq_of_mem_set hp1 with hm | hm
                · exact h2 p hm
                · exact absurd hm (by simp)
              · rw [if_neg hfl] at h
                cases hq : s.fileQueue with
                | nil =>
                    rw [hq] at h
                    injection h with h
                    subst h
                    refine ⟨h1, fun p hp1 => ?_⟩
                    rcases List.mem_or_eq_of_mem_set hp1 with hm | hm
                    · exact h2 p hm
                    · exact absurd hm (by simp)
                | cons q rest =>
                    rw [hq] at h
                    injection h with h
                    subst h
                    refine ⟨h1, fun p hp1 => ?_⟩
                    rcases List.mem_or_eq_of_mem_set hp1 with hm | hm
                    · exact h2 p hm
                    · exact absurd hm (by simp)
          | analyzing p => simp [step, hti] at h
          | pushing p => simp [step, hti] at h
          | exited => simp [step, hti] at h
  | wAnalyze i =>
      cases hti : s.threads[i]? with
      | none => simp [step, hti] at h
      | some w =>
          cases w with
          | atHead => simp [step, hti] at h
          | analyzing q =>
              simp only [step, hti] at h
              by_cases ha : a q = true
              · rw [if_pos ha] at h
                injection h with h
                subst h
                refine ⟨h1, fun p hp1 => ?_⟩
                rcases List.mem_or_eq_of_mem_set hp1 with hm | hm
                · exact h2 p hm
                · injection hm with hm
                  subst hm
                  exact ha
              · rw [if_neg ha] at h
                injection h with h
                subst h
                refine ⟨h1, fun p hp1 => ?_⟩
                rcases List.mem_or_eq_of_mem_set hp1 with hm | hm
                · exact h2 p hm
                · exact absurd hm (by simp)
          | pushing p => simp [step, hti] at h
          | exited => simp [step, hti] at h
  | wPush i =>
      cases hti : s.threads[i]? with
      | none => simp [step, hti] at h
      | some w =>
          cases w with
          | atHead => simp [step, hti] at h
          | analyzing p => simp [step, hti] at h
          | pushing q =>
              simp only [step, hti] at h
              by_cases hlt : s.analysisQueue.length < s.cap
              · rw [if_pos hlt] at h
                injection h with h
                subst h
                constructor
                · intro p hp1
                  rcases List.mem_append.mp hp1 with hm | hm
                  · exact h1 p hm
                  · have : p = q := by simpa using hm
                    subst this
                    exact h2 p (List.getElem?_mem hti)
                · intro p hp1
                  rcases List.mem_or_eq_of_mem_set hp1 with hm | hm
                  · exact h2 p hm
                  · exact absurd hm (by simp)
              · rw [if_neg hlt] at h
                exact Option.noConfusion h
          | exited => simp [step, hti] at h
  | deliver p =>
      cases hp : s.phase with
      | some b => simp [step, hp] at h
      | none =>
          cases hq : s.analysisQueue with
          | nil => simp [step, hp, hq] at h
          | cons q rest =>
              simp only [step, hp, hq] at h
              by_cases hqp : q = p
              · rw [if_pos hqp] at h
                injection h with h
                subst h
                refine ⟨fun u hu => ?_, h2⟩
                have hu1 : u ∈ s.analysisQueue := by
                  rw [hq]
                  exact List.mem_cons_of_mem q hu
                exact h1 u hu1
              · rw [if_neg hqp] at h
                exact Option.noConfusion h

/-- The successful-analysis invariant of the output queue holds along every
schedule. -/
theorem run_good {a : Path → Bool} :
    ∀ (evs : List Ev) (s t : PoolState),
      (∀ p ∈ s.analysisQueue, a p = true) →
      (∀ p, WStatus.pushing p ∈ s.threads → a p = true) →
      run a s evs = some t → ∀ p ∈ t.analysisQueue, a p = true := by
  intro evs
  induction evs with
  | nil =>
      intro s t h1 _ h
      simp only [run] at h
      injection h with h
      subst h
      exact h1
  | cons e es ih =>
      intro s t h1 h2 h
      simp only [run] at h
      cases hst : step a s e with
      | none => rw [hst] at h; exact Option.noConfusion h
      | some s1 =>
          rw [hst] at h
          obtain ⟨g1, g2⟩ := step_good h1 h2 hst
          exact ih s1 t g1 g2 h

/-- Claim C6: a path whose analysis raises is contained inside the worker
loop — along every schedule, every result in the output queue comes from a
successful analysis (a failed path never emits a result); and the failure
transition itself only logs and drops: it leaves both queues untouched (no
result, no retry) and returns the worker to the loop head (no crash, other
items unaffected). -/
theorem per_item_failure_containment (a : Path → Bool) (n : ℕ) :
    (∀ (evs : List Ev) (s : PoolState) (p : Path),
      run a (initPool n) evs = some s → p ∈ s.analysisQueue → a p = true) ∧
    (∀ (s : PoolState) (i : ℕ) (p : Path),
      s.threads[i]? = some (.analyzing p) → a p = false →
      step a s (.wAnalyze i) =
        some { s with threads := s.threads.set i .atHead }) := by
  constructor
  · intro evs s p h hp
    exact run_good evs (initPool n) s (by simp [initPool]) (by simp [initPool])
      h p hp
  · intro s i p hi ha
    simp only [step, hi]
    rw [if_neg (by simp [ha])]

/-- Witness for C6: with the oracle that succeeds exactly on even paths, a
schedule that analyzes path 2 yields only successfully analyzed results, and
a worker holding the failing path 3 drops it and returns to the loop head
with both queues unchanged. -/
theorem per_item_failure_containment_witness :
    evenOracle 2 = true ∧
    step evenOracle
      { phase := none, stopFlag := false, fileQueue := [4], analysisQueue := [],
        threads := [WStatus.analyzing 3], numWorkers := 1, cap := 2 }
      (.wAnalyze 0) =
      some { phase := none, stopFlag := false, fileQueue := [4],
             analysisQueue := [], threads := [WStatus.atHead], numWorkers := 1,
             cap := 2 } := by
  constructor
  · exact (per_item_failure_containment evenOracle 1).1
      [.startBegin [2], .startFinish, .wHead 0, .wAnalyze 0, .wPush 0]
      { phase := none, stopFlag := false, fileQueue := [], analysisQueue := [2],
        threads := [WStatus.atHead], numWorkers := 1, cap := 2 } 2
      (by decide) (by decide)
  · exact ((per_item_failure_containment evenOracle 1).2 _ 0 3 (by decide)
      (by decide)).trans (by decide)

/-- Claim C2 (amended): one loop-head iteration of `_worker_wrapper` — if the
cancellation flag is set the worker exits immediately without claiming
another path (the input queue is untouched); if the claim attempt finds the
input queue empty while the flag is clear, the worker also exits (its
`except queue.Empty: break`) rather than looping again; it proceeds to
analysis only when the flag is clear and the queue is nonempty. -/
theorem worker_head_step_behaviour (a : Path → Bool) (s : PoolState) (i : ℕ)
    (hi : s.threads[i]? = some .atHead) :
    (s.stopFlag = true →
      step a s (.wHead i) =
        some { s with threads := s.threads.set i .exited }) ∧
    (s.stopFlag = false → s.fileQueue = [] →
      step a s (.wHead i) =
        some { s with threads := s.threads.set i .exited }) ∧
    (∀ (p : Path) (rest : List Path),
      s.stopFlag = false → s.fileQueue = p :: rest →
      step a s (.wHead i) =
        some { s with threads := s.threads.set i (.analyzing p),
                      fileQueue := rest }) := by
  refine ⟨?_, ?_, ?_⟩
  · intro hf
    simp [step, hi, hf]
  · intro hf hq
    simp [step, hi, hf, hq]
  · intro p rest hf hq
    simp [step, hi, hf, hq]

/-- Counterexample to C2 as stated: from a reachable state with the
cancellation flag clear and the input queue empty, the worker's head step
moves it to `exited` — it leaves the loop on `queue.Empty` instead of
looping again as the claim asserts. -/
theorem worker_exit_on_empty_cex :
    run (fun _ => true) (initPool 1) [.startBegin [], .startFinish, .wHead 0] =
      some { phase := none, stopFlag := false, fileQueue := [],
             analysisQueue := [], threads := [.exited], numWorkers := 1,
             cap := 2 } ∧
    WStatus.exited ≠ WStatus.atHead := by
  exact ⟨by decide, by decide⟩

/-- Witness for C2: the three loop-head outcomes at concrete states — exit on
a set flag, exit on an empty queue, claim of the head path otherwise. -/
theorem worker_head_step_behaviour_witness :
    step (fun _ => true)
      { phase := none, stopFlag := true, fileQueue := [9], analysisQueue := [],
        threads := [WStatus.atHead], numWorkers := 1, cap := 2 } (.wHead 0) =
      some { phase := none, stopFlag := true, fileQueue := [9],
             analysisQueue := [], threads := [WStatus.exited], numWorkers := 1,
             cap := 2 } ∧
    step (fun _ => true)
      { phase := none, stopFlag := false, fileQueue := [], analysisQueue := [],
        threads := [WStatus.atHead], numWorkers := 1, cap := 2 } (.wHead 0) =
      some { phase := none, stopFlag := false, fileQueue := [],
             analysisQueue := [], threads := [WStatus.exited], numWorkers := 1,
             cap := 2 } ∧
    step (fun _ => true)
      { phase := none, stopFlag := false, fileQueue := [3, 4],
        analysisQueue := [], threads := [WStatus.atHead], numWorkers := 1,
        cap := 2 } (.wHead 0) =
      some { phase := none, stopFlag := false, fileQueue := [4],
             analysisQueue := [], threads := [WStatus.analyzing 3],
             numWorkers := 1, cap := 2 } := by
  refine ⟨?_, ?_, ?_⟩
  · exact ((worker_head_step_behaviour (fun _ => true)
      { phase := none, stopFlag := true, fileQueue := [9], analysisQueue := [],
        threads := [WStatus.atHead], numWorkers := 1, cap := 2 } 0
      (by decide)).1 (by decide)).trans (by decide)
  · exact ((worker_head_step_behaviour (fun _ => true)
      { phase := none, stopFlag := false, fileQueue := [], analysisQueue := [],
        threads := [WStatus.atHead], numWorkers := 1, cap := 2 } 0
      (by decide)).2.1 (by decide) (by decide)).trans (by decide)
  · exact ((worker_head_step_behaviour (fun _ => true)
      { phase := none, stopFlag := false, fileQueue := [3, 4],
        analysisQueue := [], threads := [WStatus.atHead], numWorkers := 1,
        cap := 2 } 0 (by decide)).2.2 3 [4] (by decide) (by decide)).trans
      (by decide)

/-- Claim C8: `start_workers` reuses the same queue fields across
generations (the embedding mutates them in place, as the code mutates the
same `queue.Queue` objects) and, before enqueuing the new batch, drains
both: the drain loop always empties a queue, and the `startFinish` step is
enabled and produces a state whose output queue is empty and whose input
queue holds exactly the new batch. -/
theorem start_workers_reuse_and_drain (a : Path → Bool) (s : PoolState)
    (B : List Path) (h : s.phase = some B) :
    drainLoop s.analysisQueue = [] ∧
    (∀ t, step a s .startFinish = some t →
      t.analysisQueue = [] ∧ t.fileQueue = B ∧ t.phase = none) ∧
    step a s .startFinish ≠ none := by
  refine ⟨drainLoop_nil _, ?_, ?_⟩
  · intro t ht
    simp only [step, h] at ht
    injection ht with ht
    subst ht
    exact ⟨by simp [drainLoop_nil], by simp [drainLoop_nil], rfl⟩
  · simp [step, h]

/-- Witness for C8: a mid-restart state with a stale buffered result `[3,4]`
and a stale pending path `[5]`; finishing the restart empties the output
queue and leaves exactly the new batch `[8]` pending. -/
theorem start_workers_reuse_and_drain_witness :
    drainLoop [3, 4] = [] ∧
    (([] : List Path) = [] ∧ ([8] : List Path) = [8] ∧
      (none : Option (List Path)) = none) ∧
    step (fun _ => true)
      { phase := some [8], stopFlag := true, fileQueue := [5],
        analysisQueue := [3, 4], threads := [], numWorkers := 2, cap := 3 }
      .startFinish ≠ none := by
  refine ⟨?_, ?_, ?_⟩
  · exact (start_workers_reuse_and_drain (fun _ => true)
      { phase := some [8], stopFlag := true, fileQueue := [5],
        analysisQueue := [3, 4], threads := [], numWorkers := 2, cap := 3 }
      [8] (by decide)).1
  · exact (start_workers_reuse_and_drain (fun _ => true)
      { phase := some [8], stopFlag := true, fileQueue := [5],
        analysisQueue := [3, 4], threads := [], numWorkers := 2, cap := 3 }
      [8] (by decide)).2.1
      { phase := none, stopFlag := false,
        fileQueue := drainLoop [5] ++ [8], analysisQueue := drainLoop [3, 4],
        threads := List.filter (fun w => w ≠ WStatus.exited) [] ++
          List.replicate 2 WStatus.atHead,
        numWorkers := 2, cap := 3 } rfl
  · exact (start_workers_reuse_and_drain (fun _ => true)
      { phase := some [8], stopFlag := true, fileQueue := [5],
        analysisQueue := [3, 4], threads := [], numWorkers := 2, cap := 3 }
      [8] (by decide)).2.2

/-- A pool transition other than a new `startBegin` preserves the generation
invariant, and any delivery it performs hands the consumer a path of the
current batch. -/
theorem step_inGen {a : Path → Bool} {B : List Path} {s s1 : PoolState}
    {e : Ev} (hg : InGen B s) (hne : ∀ batch, e ≠ .startBegin batch)
    (h : step a s e = some s1) :
    InGen B s1 ∧ ∀ p, e = .deliver p → p ∈ B := by
  obtain ⟨hp, hf, ha, han, hpu⟩ := hg
  cases e with
  | startBegin batch => exact absurd rfl (hne batch)
  | startFinish => simp [step, hp] at h
  | wHead i =>
      refine ⟨?_, by simp⟩
      cases hti : s.threads[i]? with
      | none => simp [step, hti] at h
      | some w =>
          cases w with
          | atHead =>
              simp only [step, hti] at h
              by_cases hfl : s.stopFlag = true
              · rw [if_pos hfl] at h
                injection h with h
                subst h
                refine ⟨hp, hf, ha, ?_, ?_⟩
                · intro q hq
                  rcases List.mem_or_eq_of_mem_set hq with hm | hm
                  · exact han q hm
                  · exact absurd hm (by simp)
                · intro q hq
                  rcases List.mem_or_eq_of_mem_set hq with hm | hm
                  · exact hpu q hm
                  · exact absurd hm (by simp)
              · rw [if_neg hfl] at h
                cases hq : s.fileQueue with
                | nil =>
                    rw [hq] at h
                    injection h with h
                    subst h
                    refine ⟨hp, by simp, ha, ?_, ?_⟩
                    · intro q hq1
                      rcases List.mem_or_eq_of_mem_set hq1 with hm | hm
                      · exact han q hm
                      · exact absurd hm (by simp)
                    · intro q hq1
                      rcases List.mem_or_eq_of_mem_set hq1 with hm | hm
                      · exact hpu q hm
                      · exact absurd hm (by simp)
                | cons u rest =>
                    rw [hq] at h
                    injection h with h
                    subst h
                    have huB : u ∈ B := hf u (by rw [hq]; exact List.mem_cons_self u rest)
                    refine ⟨hp, ?_, ha, ?_, ?_⟩
                    · intro q hq1
                      exact hf q (by rw [hq]; exact List.mem_cons_of_mem u hq1)
                    · intro q hq1
                      rcases List.mem_or_eq_of_mem_set hq1 with hm | hm
                      · exact han q hm
                      · injection hm with hm
                        subst hm
                        exact huB
                    · intro q hq1
                      rcases List.mem_or_eq_of_mem_set hq1 with hm | hm
                      · exact hpu q hm
                      · exact absurd hm (by simp)
          | analyzing q => simp [step, hti] at h
          | pushing q => simp [step, hti] at h
          | exited => simp [step, hti] at h
  | wAnalyze i =>
      refine ⟨?_, by simp⟩
      cases hti : s.threads[i]? with
      | none => simp [step, hti] at h
      | some w =>
          cases w with
          | atHead => simp [step, hti] at h
          | analyzing u =>
              have huB : u ∈ B := han u (List.getElem?_mem hti)
              simp only [step, hti] at h
              by_cases hau : a u = true
              · rw [if_pos hau] at h
                injection h with h
                subst h
                refine ⟨hp, hf, ha, ?_, ?_⟩
                · intro q hq1
                  rcases List.mem_or_eq_of_mem_set hq1 with hm | hm
                  · exact han q hm
                  · exact absurd hm (by simp)
                · intro q hq1
                  rcases List.mem_or_eq_of_mem_set hq1 with hm | hm
                  · exact hpu q hm
                  · injection hm with hm
                    subst hm
                    exact huB
              · rw [if_neg hau] at h
                injection h with h
                subst h
                refine ⟨hp, hf, ha, ?_, ?_⟩
                · intro q hq1
                  rcases List.mem_or_eq_of_mem_set hq1 with hm | hm
                  · exact han q hm
                  · exact absurd hm (by simp)
                · intro q hq1
                  rcases List.mem_or_eq_of_mem_set hq1 with hm | hm
                  · exact hpu q hm
                  · exact absurd hm (by simp)
          | pushing q => simp [step, hti] at h
          | exited => simp [step, hti] at h
  | wPush i =>
      refine ⟨?_, by simp⟩
      cases hti : s.threads[i]? with
      | none => simp [step, hti] at h
      | some w =>
          cases w with
          | atHead => simp [step, hti] at h
          | analyzing q => simp [step, hti] at h
          | pushing u =>
              have huB : u ∈ B := hpu u (List.getElem?_mem hti)
              simp only [step, hti] at h
              by_cases hlt : s.analysisQueue.length < s.cap
              · rw [if_pos hlt] at h
                injection h with h
                subst h
                refine ⟨hp, hf, ?_, ?_, ?_⟩
                · intro q hq1
                  rcases List.mem_append.mp hq1 with hm | hm
                  · exact ha q hm
                  · have : q = u := by simpa using hm
                    subst this
                    exact huB
                · intro q hq1
                  rcases List.mem_or_eq_of_mem_set hq1 with hm | hm
                  · exact han q hm
                  · exact absurd hm (by simp)
                · intro q hq1
                  rcases List.mem_or_eq_of_mem_set hq1 with hm | hm
                  · exact hpu q hm
                  · exact absurd hm (by simp)
              · rw [if_neg hlt] at h
                exact Option.noConfusion h
          | exited => simp [step, hti] at h
  | deliver p =>
      cases hq : s.analysisQueue with
      | nil => simp [step, hp, hq] at h
      | cons q rest =>
          simp only [step, hp, hq] at h
          by_cases hqp : q = p
          · rw [if_pos hqp] at h
            injection h with h
            subst h
            subst hqp
            have hqB : q ∈ B := ha q (by rw [hq]; exact List.mem_cons_self q rest)
            refine ⟨⟨rfl, hf, ?_, han, hpu⟩, ?_⟩
            · intro u hu
              exact ha u (by rw [hq]; exact List.mem_cons_of_mem q hu)
            · intro u hu
              injection hu with hu
              subst hu
              exact hqB
          · rw [if_neg hqp] at h
            exact Option.noConfusion h

/-- Along any schedule that never initiates another restart, the generation
invariant persists and every delivered result belongs to the current
batch. -/
theorem run_inGen {a : Path → Bool} {B : List Path} :
    ∀ (evs : List Ev) (s t : PoolState), InGen B s →
      noStartBegin evs = true → run a s evs = some t →
      ∀ p, Ev.deliver p ∈ evs → p ∈ B := by
  intro evs
  induction evs with
  | nil =>
      intro s t _ _ _ p hpmem
      simp at hpmem
  | cons e es ih =>
      intro s t hg hnb h p hpmem
      simp only [noStartBegin, List.all_cons, Bool.and_eq_true] at hnb
      obtain ⟨he, hnb1⟩ := hnb
      simp only [run] at h
      cases hst : step a s e with
      | none => rw [hst] at h; exact Option.noConfusion h
      | some s1 =>
          rw [hst] at h
          have hne : ∀ batch, e ≠ Ev.startBegin batch := by
            intro batch hbe
            subst hbe
            simp at he
          obtain ⟨hg1, hdel⟩ := step_inGen hg hne hst
          rcases List.mem_cons.mp hpmem with hm | hm
          · exact hdel p hm.symm
          · exact ih s1 t hg1 hnb1 h p hm

/-- If every previous-generation worker has exited by the time the restart's
join window closes, finishing the restart establishes the generation
invariant for the new batch. -/
theorem startFinish_fresh {a : Path → Bool} {B : List Path} {s t : PoolState}
    (hp : s.phase = some B) (hex : ∀ w ∈ s.threads, w = .exited)
    (h : step a s .startFinish = some t) : InGen B t := by
  simp only [step, hp] at h
  injection h with h
  subst h
  refine ⟨rfl, ?_, ?_, ?_, ?_⟩
  · intro p hpmem
    rw [drainLoop_nil] at hpmem
    simpa using hpmem
  · intro p hpmem
    simp [drainLoop_nil] at hpmem
  · intro q hq
    rcases List.mem_append.mp hq with hm | hm
    · exact absurd (hex _ (List.mem_filter.mp hm).1) (by simp)
    · exact absurd (List.eq_of_mem_replicate hm) (by simp)
  · intro q hq
    rcases List.mem_append.mp hq with hm | hm
    · exact absurd (hex _ (List.mem_filter.mp hm).1) (by simp)
    · exact absurd (List.eq_of_mem_replicate hm) (by simp)

/-- Claim C1 (amended): restart correctness holds for a *clean* restart —
if, when `start_workers(B)`'s join window closes, every previous-generation
worker has actually exited, then no result whose source path lies outside
`B` (in particular none from a disjoint previous batch `A`) is ever
delivered by `get_result` until the next restart begins.  (The original
unconditional claim is false: an abandoned worker surviving the 1-second
join timeout can still push a batch-A result into the reused queues after
the second start — see the counterexample.) -/
theorem restart_no_stale_after_clean_join (a : Path → Bool) (n : ℕ)
    (A B : List Path) (pre mid : List Ev) (p : Path) (s t : PoolState)
    (hAB : ∀ q ∈ A, q ∉ B)
    (_hpre : run a (initPool n) pre = some s)
    (hphase : s.phase = some B)
    (hexited : ∀ w ∈ s.threads, w = .exited)
    (hrun : run a s (.startFinish :: mid) = some t)
    (hnb : noStartBegin mid = true)
    (hdel : Ev.deliver p ∈ mid) :
    p ∉ A := by
  simp only [run] at hrun
  cases hsf : step a s .startFinish with
  | none => rw [hsf] at hrun; exact Option.noConfusion hrun
  | some u =>
      rw [hsf] at hrun
      have hu : InGen B u := startFinish_fresh hphase hexited hsf
      have hpB : p ∈ B := run_inGen mid u t hu hnb hrun p hdel
      intro hpA
      exact hAB p hpA hpB

/-- Counterexample to C1 as stated: batch `A = [0]`, batch `B = [1]`, one
worker, analysis always succeeds.  The worker claims path 0, the consumer
then restarts with batch `B` while the worker is still analyzing; the join
times out, the worker is abandoned but stays live, and after the restart
completes it finishes, pushes the batch-A result into the reused output
queue, and `get_result` delivers path 0 — an `AnalysisResult` of batch A
returned after the second `start()`, although the post-restart schedule
contains no further `startBegin` and `A` and `B` are disjoint. -/
theorem restart_stale_delivery_cex :
    run (fun _ => true) (initPool 1)
      [.startBegin [0], .startFinish, .wHead 0, .startBegin [1]] =
      some { phase := some [1], stopFlag := true, fileQueue := [],
             analysisQueue := [], threads := [.analyzing 0], numWorkers := 1,
             cap := 2 } ∧
    run (fun _ => true)
      { phase := some [1], stopFlag := true, fileQueue := [],
        analysisQueue := [], threads := [.analyzing 0], numWorkers := 1,
        cap := 2 }
      (.startFinish :: [.wAnalyze 0, .wPush 0, .deliver 0]) =
      some { phase := none, stopFlag := false, fileQueue := [1],
             analysisQueue := [], threads := [.atHead, .atHead],
             numWorkers := 1, cap := 2 } ∧
    noStartBegin [.wAnalyze 0, .wPush 0, .deliver 0] = true ∧
    Ev.deliver 0 ∈ [Ev.wAnalyze 0, Ev.wPush 0, Ev.deliver 0] ∧
    (0 : Path) ∈ ([0] : List Path) ∧ (0 : Path) ∉ ([1] : List Path) := by
  refine ⟨by decide, by decide, by decide, by decide, by decide, by decide⟩

/-- Witness for C1: the same two batches, but the worker finishes and exits
before the second restart's join closes; the stale buffered result `[0]` is
drained by `start_workers`, and only the batch-B path 1 is delivered
afterwards — so path 1 is not in batch A. -/
theorem restart_no_stale_after_clean_join_witness :
    run (fun _ => true) (initPool 1)
      [.startBegin [0], .startFinish, .wHead 0, .wAnalyze 0, .wPush 0,
        .wHead 0, .startBegin [1]] =
      some { phase := some [1], stopFlag := true, fileQueue := [],
             analysisQueue := [0], threads := [.exited], numWorkers := 1,
             cap := 2 } ∧
    run (fun _ => true)
      { phase := some [1], stopFlag := true, fileQueue := [],
        analysisQueue := [0], threads := [.exited], numWorkers := 1, cap := 2 }
      (.startFinish :: [.wHead 0, .wAnalyze 0, .wPush 0, .deliver 1]) =
      some { phase := none, stopFlag := false, fileQueue := [],
             analysisQueue := [], threads := [.atHead], numWorkers := 1,
             cap := 2 } ∧
    (1 : Path) ∉ ([0] : List Path) := by
  refine ⟨by decide, by decide, ?_⟩
  exact restart_no_stale_after_clean_join (fun _ => true) 1 [0] [1]
    [.startBegin [0], .startFinish, .wHead 0, .wAnalyze 0, .wPush 0,
      .wHead 0, .startBegin [1]]
    [.wHead 0, .wAnalyze 0, .wPush 0, .deliver 1] 1
    { phase := some [1], stopFlag := true, fileQueue := [],
      analysisQueue := [0], threads := [.exited], numWorkers := 1, cap := 2 }
    { phase := none, stopFlag := false, fileQueue := [],
      analysisQueue := [], threads := [.atHead], numWorkers := 1, cap := 2 }
    (by decide) (by decide) (by decide) (by decide) (by decide) (by decide)
    (by decide)

end DJLib
